import Mathlib

set_option maxRecDepth 1000000

/-!
Verification of the probability engine of DuelMath (`src/services/mathUtils.ts`).

The engine works on JavaScript numbers (which are integers at every call site
covered here) and BigInt for exact combination counts.  The shallow embedding
uses `ℤ` for the integer inputs, `ℕ` for the exact BigInt way-counts, and `ℚ`
for the final probability ratios (the source converts the two exact integers to
floating point only for the final division; we keep that division exact, which
is the idealisation the spec itself demands: "all results must be exact
rational values, only rounded for display").  Display rounding
(`parseFloat(x.toFixed(2))`) is modelled by exact round-half-up at two
decimals.
-/

/-- The iterative product loop inside `combinations`:
`res = res * (n - i + 1) / i` for `i = 1 .. k`, with exact (truncating)
integer division at each step, mirroring the BigInt loop of the source. -/
def combProd (n k : ℕ) : ℕ :=
  (List.range' 1 k).foldl (fun res i => res * (n - i + 1) / i) 1

/-- `combinations(n, k)` from the source: return 0 outside `0 ≤ k ≤ n`,
1 at the endpoints, otherwise reduce by symmetry (`k > n/2` on integers is
`2k > n`) and run the exact-division product loop.  The memo cache
(`comboMemo`) is omitted: it is a pure cache with no observable effect. -/
def combinations (n k : ℤ) : ℕ :=
  if k < 0 ∨ k > n then 0
  else if k = 0 ∨ k = n then 1
  else
    let k2 := if 2 * k > n then n - k else k
    combProd n.toNat k2.toNat

theorem combProd_eq_choose (n : ℕ) : ∀ k, k ≤ n → combProd n k = n.choose k := by
  intro k
  induction k with
  | zero => intro _; simp [combProd]
  | succ k ih =>
    intro hk
    have hk' : k ≤ n := Nat.le_of_succ_le hk
    have hprev := ih hk'
    unfold combProd at hprev ⊢
    rw [List.range'_concat, List.foldl_append, hprev]
    simp only [List.foldl_cons, List.foldl_nil, one_mul]
    have hsub : n - (1 + k) + 1 = n - k := by omega
    have hdiv : 1 + k = k + 1 := by omega
    rw [hsub, hdiv, ← Nat.choose_succ_right_eq n k]
    exact Nat.mul_div_cancel _ (Nat.succ_pos k)

theorem combinations_eq_choose (n k : ℤ) (h0 : 0 ≤ k) (h1 : k ≤ n) :
    combinations n k = n.toNat.choose k.toNat := by
  unfold combinations
  have hn : 0 ≤ n := le_trans h0 h1
  rw [if_neg (by omega)]
  by_cases hk0 : k = 0
  · subst hk0; simp
  by_cases hkn : k = n
  · subst hkn
    rw [if_pos (Or.inr rfl)]
    exact (Nat.choose_self _).symm
  rw [if_neg (by tauto)]
  show combProd n.toNat (if 2 * k > n then n - k else k).toNat = n.toNat.choose k.toNat
  have hkn' : k.toNat ≤ n.toNat := by omega
  by_cases hsym : 2 * k > n
  · rw [if_pos hsym]
    have h2 : (n - k).toNat = n.toNat - k.toNat := by omega
    rw [h2, combProd_eq_choose n.toNat (n.toNat - k.toNat) (Nat.sub_le _ _)]
    exact Nat.choose_symm hkn'
  · rw [if_neg hsym]
    exact combProd_eq_choose n.toNat k.toNat hkn'

theorem combinations_pos (n k : ℤ) (h0 : 0 ≤ k) (h1 : k ≤ n) :
    0 < combinations n k := by
  rw [combinations_eq_choose n k h0 h1]
  exact Nat.choose_pos (by omega)

theorem combinations_eq_zero_of_gt (n k : ℤ) (h : n < k) : combinations n k = 0 := by
  unfold combinations
  rw [if_pos (Or.inr h)]

/-- C8: `combinations(n, k)` returns 0 whenever `k < 0` or `k > n`, and
returns 1 for every `n ≥ 0` at `k = 0` and at `k = n`. -/
theorem claim_C8 (n k : ℤ) :
    ((k < 0 ∨ n < k) → combinations n k = 0) ∧
      (0 ≤ n → combinations n 0 = 1 ∧ combinations n n = 1) := by
  constructor
  · intro h
    unfold combinations
    rw [if_pos (by tauto)]
  · intro hn
    constructor
    · unfold combinations
      rw [if_neg (by omega), if_pos (Or.inl rfl)]
    · by_cases hn0 : n = 0
      · subst hn0
        unfold combinations
        rw [if_neg (by omega), if_pos (Or.inl rfl)]
      · unfold combinations
        rw [if_neg (by omega), if_pos (Or.inr rfl)]

theorem claim_C8_witness :
    combinations 5 7 = 0 ∧ combinations 5 0 = 1 ∧ combinations 5 5 = 1 :=
  ⟨(claim_C8 5 7).1 (Or.inr (by decide)), (claim_C8 5 7).2 (by decide)⟩

/-- C9: for every `0 ≤ n ≤ 40`, the sum of `combinations(n, k)` for
`k = 0 .. n` is exactly `2 ^ n` as an exact natural number. -/
theorem claim_C9 (n : ℕ) (h : n ≤ 40) :
    (∑ k ∈ Finset.range (n + 1), combinations (n : ℤ) (k : ℤ)) = 2 ^ n := by
  have hterm : ∀ k ∈ Finset.range (n + 1),
      combinations (n : ℤ) (k : ℤ) = n.choose k := by
    intro k hk
    have hk' : k ≤ n := Nat.lt_succ_iff.mp (Finset.mem_range.mp hk)
    rw [combinations_eq_choose (n : ℤ) (k : ℤ) (by positivity) (by exact_mod_cast hk')]
    simp
  rw [Finset.sum_congr rfl hterm]
  exact Nat.sum_range_choose n

theorem claim_C9_witness :
    (∑ k ∈ Finset.range 41, combinations (40 : ℤ) (k : ℤ)) = 2 ^ 40 :=
  claim_C9 40 (by decide)

/-- A constraint group (`HyperGroup` in the source).  The `id` and `name`
fields are display-only strings that never enter the computation and are
omitted from the embedding. -/
structure HyperGroup where
  countInDeck : ℤ
  minDesired : ℤ
  maxDesired : ℤ

/-- The recursive `solve(groupIndex, remainingHand, currentWays)` closure of
`calculateMultivariateHyper`, returned as the total this call adds to
`totalSuccessfulCombinations`.  The `for` loop over
`take = max(0, minDesired) .. min(remainingHand, countInDeck, maxDesired)`
becomes a sum over `Finset.Icc`, and the `ways > 0` pruning guard is kept
(a skipped branch contributes 0). -/
def solve (otherCount : ℤ) : List HyperGroup → ℤ → ℕ → ℕ
  | [], remainingHand, currentWays =>
    if remainingHand < 0 then 0
    else if remainingHand ≤ otherCount then
      currentWays * combinations otherCount remainingHand
    else 0
  | g :: gs, remainingHand, currentWays =>
    if remainingHand < 0 then 0
    else
      ∑ take ∈ Finset.Icc (max 0 g.minDesired)
          (min remainingHand (min g.countInDeck g.maxDesired)),
        if 0 < combinations g.countInDeck take then
          solve otherCount gs (remainingHand - take)
            (currentWays * combinations g.countInDeck take)
        else 0

/-- `calculateMultivariateHyper(deckSize, handSize, groups)`: guards mapping
out-of-domain input to 0, then `solve(0, handSize, 1)` divided by the total
combination count, as a percentage. -/
def calculateMultivariateHyper (deckSize handSize : ℤ) (groups : List HyperGroup) : ℚ :=
  if handSize > deckSize ∨ handSize < 0 then 0
  else
    let totalInGroups := (groups.map (fun g => g.countInDeck)).sum
    if totalInGroups > deckSize then 0
    else
      let otherCount := deckSize - totalInGroups
      let totalCombinations := combinations deckSize handSize
      if totalCombinations = 0 then 0
      else ((solve otherCount groups handSize 1 : ℚ) / (totalCombinations : ℚ)) * 100

/-- `parseFloat(x.toFixed(2))` on a non-negative value: round to two decimal
places, half away from zero modelled as half up. -/
def roundTo2 (x : ℚ) : ℚ := ((x * 100 + 1 / 2).floor : ℚ) / 100

/-- C5: `calculateMultivariateHyper` returns 0 (not an error) whenever
`handSize > deckSize`, or the groups' total `countInDeck` exceeds `deckSize`,
or `combinations(deckSize, handSize) = 0`. -/
theorem claim_C5 (deckSize handSize : ℤ) (groups : List HyperGroup)
    (h : deckSize < handSize ∨ deckSize < (groups.map (fun g => g.countInDeck)).sum ∨
      combinations deckSize handSize = 0) :
    calculateMultivariateHyper deckSize handSize groups = 0 := by
  simp only [calculateMultivariateHyper]
  split_ifs with h1 h2 h3
  · rfl
  · rfl
  · rfl
  · exfalso
    rcases h with h | h | h
    · exact h1 (Or.inl h)
    · exact h2 h
    · exact h3 h

theorem claim_C5_witness :
    calculateMultivariateHyper 3 5 [] = 0 ∧
      calculateMultivariateHyper 5 2 [⟨6, 0, 1⟩] = 0 ∧
      calculateMultivariateHyper (-2) (-3) [] = 0 :=
  ⟨claim_C5 3 5 [] (Or.inl (by decide)),
   claim_C5 5 2 [⟨6, 0, 1⟩] (Or.inr (Or.inl (by decide))),
   claim_C5 (-2) (-3) [] (Or.inr (Or.inr (by decide)))⟩

/-- C10: with an empty group list and `0 ≤ handSize ≤ deckSize`,
`calculateMultivariateHyper` returns exactly 100: every hand comes from the
implicit "other" remainder, so the successful-way count equals the total
combination count. -/
theorem claim_C10 (deckSize handSize : ℤ) (h0 : 0 ≤ handSize) (h1 : handSize ≤ deckSize) :
    calculateMultivariateHyper deckSize handSize [] = 100 := by
  have hpos := combinations_pos deckSize handSize h0 h1
  simp only [calculateMultivariateHyper, List.map_nil, List.sum_nil]
  rw [if_neg (by omega), if_neg (by omega), if_neg (by omega)]
  have hsolve : solve (deckSize - 0) [] handSize 1 = combinations (deckSize - 0) handSize := by
    unfold solve
    rw [if_neg (by omega), if_pos (by omega), one_mul]
  rw [hsolve, sub_zero]
  have hne : (combinations deckSize handSize : ℚ) ≠ 0 := by
    exact_mod_cast Nat.pos_iff_ne_zero.mp hpos
  rw [div_self hne, one_mul]

theorem claim_C10_witness : calculateMultivariateHyper 10 4 [] = 100 :=
  claim_C10 10 4 (by decide) (by decide)

/-- C2 (counterexample): the claimed known value is false.  At
`(deckSize 40, handSize 5, one group {countInDeck 3, minDesired 1,
maxDesired 3})` the engine returns `222111/658008 * 100` %, which rounds to
33.76 at two decimal places, not 39.76. -/
theorem claim_C2_counterexample :
    roundTo2 (calculateMultivariateHyper 40 5 [⟨3, 1, 3⟩]) ≠ 3976 / 100 := by
  with_unfolding_all decide

/-- C2 (amended): `calculateMultivariateHyper(40, 5, [{countInDeck 3,
minDesired 1, maxDesired 3}])` equals approximately 33.76, verified to two
decimal places. -/
theorem claim_C2_amended :
    roundTo2 (calculateMultivariateHyper 40 5 [⟨3, 1, 3⟩]) = 3376 / 100 := by
  with_unfolding_all decide

/-- A row of `calculateSwissStandings` (`SwissStanding` in the source). -/
structure SwissStanding where
  wins : ℤ
  losses : ℤ
  count : ℚ
  lowerBound : ℤ
  upperBound : ℤ
  deriving DecidableEq

/-- The loop variable sequence `wins = numRounds, numRounds - 1, .., 0` of
`calculateSwissStandings`; empty when `numRounds < 0` (the loop condition
`wins >= 0` fails at once). -/
def winsList (numRounds : ℤ) : List ℤ :=
  (List.range (numRounds + 1).toNat).reverse.map (fun w : ℕ => (w : ℤ))

/-- `calculateSwissStandings(numPlayers, numRounds)`: one entry per win count,
in descending-wins order.  `totalCombinations = 2 ** numRounds` becomes an
integer power of `(2 : ℚ)`; `Math.floor`/`Math.ceil` become `Rat.floor` and
`Rat.ceil`. -/
def calculateSwissStandings (numPlayers numRounds : ℤ) : List SwissStanding :=
  (winsList numRounds).map (fun wins =>
    let ways : ℚ := combinations numRounds wins
    let exactProb := ways / (2 : ℚ) ^ numRounds
    let count := exactProb * numPlayers
    { wins := wins, losses := numRounds - wins, count := count,
      lowerBound := count.floor, upperBound := max count.floor count.ceil })

/-- The `makeItChanceMap` construction loop of `calculateTopXProbability`:
walk the standings with a running `cumulativePlayers` total, assigning each
win count its qualification chance.  The source stores the chances in a
record keyed by `wins`; since the win counts are pairwise distinct this is an
association list. -/
def makeItChanceList (targetRank : ℚ) : ℚ → List SwissStanding → List (ℤ × ℚ)
  | _, [] => []
  | cumulativePlayers, s :: rest =>
    let prevCumulative := cumulativePlayers
    let newCumulative := cumulativePlayers + s.count
    let chance : ℚ :=
      if newCumulative ≤ targetRank then 1
      else if prevCumulative < targetRank then (targetRank - prevCumulative) / s.count
      else 0
    (s.wins, chance) :: makeItChanceList targetRank newCumulative rest

/-- `calculateTopXProbability(totalPlayers, totalRounds, targetRank,
currentWins, currentLosses)`: guards, then the binomial mixture of the
per-record qualification chances (`makeItChanceMap[finalWins] || 0` becomes
association-list lookup with default 0), rounded to two decimals. -/
def calculateTopXProbability (totalPlayers totalRounds targetRank currentWins currentLosses : ℤ) : ℚ :=
  let remainingRounds := totalRounds - (currentWins + currentLosses)
  if remainingRounds < 0 then 0
  else if targetRank ≥ totalPlayers then 100
  else
    let standings := calculateSwissStandings totalPlayers totalRounds
    let chances := makeItChanceList targetRank 0 standings
    let denominator : ℚ := (2 : ℚ) ^ remainingRounds
    let totalProbability := ((List.range (remainingRounds.toNat + 1)).map (fun i =>
      let finalWins := currentWins + (i : ℤ)
      let probGettingMoreWins := (combinations remainingRounds (i : ℤ) : ℚ) / denominator
      probGettingMoreWins * ((chances.lookup finalWins).getD 0))).sum
    roundTo2 (totalProbability * 100)

/-- C6: `calculateTopXProbability` returns 0 whenever the current record
exceeds the round count, and 100 whenever the record is consistent and the
target rank covers the whole field. -/
theorem claim_C6 (totalPlayers totalRounds targetRank currentWins currentLosses : ℤ) :
    (totalRounds < currentWins + currentLosses →
      calculateTopXProbability totalPlayers totalRounds targetRank currentWins currentLosses = 0) ∧
      (currentWins + currentLosses ≤ totalRounds → totalPlayers ≤ targetRank →
        calculateTopXProbability totalPlayers totalRounds targetRank currentWins currentLosses = 100) := by
  constructor
  · intro h
    simp only [calculateTopXProbability]
    rw [if_pos (by omega)]
  · intro h1 h2
    simp only [calculateTopXProbability]
    rw [if_neg (by omega), if_pos (by omega)]

theorem claim_C6_witness :
    calculateTopXProbability 64 6 64 0 0 = 100 ∧
      calculateTopXProbability 8 3 4 2 2 = 0 :=
  ⟨(claim_C6 64 6 64 0 0).2 (by decide) (by decide),
   (claim_C6 8 3 4 2 2).1 (by decide)⟩

theorem list_range_map_sum (n : ℕ) (f : ℕ → ℚ) :
    ((List.range n).map f).sum = ∑ i ∈ Finset.range n, f i := rfl

theorem swiss_sum_counts (numPlayers numRounds : ℤ) (hR : 0 ≤ numRounds) :
    ((calculateSwissStandings numPlayers numRounds).map (fun s => s.count)).sum = numPlayers := by
  obtain ⟨m, rfl⟩ : ∃ m : ℕ, numRounds = (m : ℤ) :=
    ⟨numRounds.toNat, (Int.toNat_of_nonneg hR).symm⟩
  have hn : ((m : ℤ) + 1).toNat = m + 1 := by omega
  have hmap : (calculateSwissStandings numPlayers (m : ℤ)).map (fun s => s.count)
      = ((List.range (m + 1)).reverse).map
          (fun w => (m.choose w : ℚ) * ((numPlayers : ℚ) / 2 ^ m)) := by
    unfold calculateSwissStandings winsList
    rw [hn, List.map_map, List.map_map]
    apply List.map_eq_map_iff.mpr
    intro w hw
    have hw' : w ≤ m :=
      Nat.lt_succ_iff.mp (List.mem_range.mp (List.mem_reverse.mp hw))
    simp only [Function.comp_apply]
    rw [combinations_eq_choose _ _ (by positivity) (by exact_mod_cast hw'), zpow_natCast]
    simp only [Int.toNat_natCast]
    ring
  rw [hmap, List.map_reverse, List.sum_reverse, list_range_map_sum,
    ← Finset.sum_mul, ← Nat.cast_sum, Nat.sum_range_choose, Nat.cast_pow, mul_comm]
  exact div_mul_cancel₀ _ (by positivity)

/-- C4: for every `numPlayers ≥ 0` and `numRounds ≥ 0`, the counts of
`calculateSwissStandings(numPlayers, numRounds)` sum exactly to `numPlayers`;
in particular at `(64, 6)` they sum to 64 and the `wins = 6` entry has
count 1. -/
theorem claim_C4 (numPlayers numRounds : ℤ) (hP : 0 ≤ numPlayers) (hR : 0 ≤ numRounds) :
    ((calculateSwissStandings numPlayers numRounds).map (fun s => s.count)).sum = numPlayers ∧
      ((calculateSwissStandings 64 6).map (fun s => s.count)).sum = ((64 : ℤ) : ℚ) ∧
      ((calculateSwissStandings 64 6).find? (fun s => s.wins == 6)).map (fun s => s.count)
        = some 1 := by
  refine ⟨swiss_sum_counts numPlayers numRounds hR, swiss_sum_counts 64 6 (by decide), ?_⟩
  with_unfolding_all decide

theorem claim_C4_witness :
    ((calculateSwissStandings 64 6).map (fun s => s.count)).sum = ((64 : ℤ) : ℚ) ∧
      ((calculateSwissStandings 64 6).find? (fun s => s.wins == 6)).map (fun s => s.count)
        = some 1 :=
  ⟨(claim_C4 64 6 (by decide) (by decide)).1, (claim_C4 64 6 (by decide) (by decide)).2.2⟩

/-- A row of `calculateProbabilities`.  The source field `exact` is a
reserved word in Lean and is rendered `exactProb`. -/
structure ProbRow where
  drawCount : ℕ
  exactProb : ℚ
  cumulativeAtLeast : ℚ

/-- `calculateProbabilities(deckSize, targetCount, handSize)`: for each
`i = 0 .. min(targetCount, handSize)`, the exact-`i` and at-least-`i`
probabilities through `calculateMultivariateHyper`, display-rounded. -/
def calculateProbabilities (deckSize targetCount handSize : ℤ) : List ProbRow :=
  let maxPossible := min targetCount handSize
  (List.range (maxPossible + 1).toNat).map (fun i : ℕ =>
    { drawCount := i,
      exactProb := roundTo2 (calculateMultivariateHyper deckSize handSize
        [⟨targetCount, (i : ℤ), (i : ℤ)⟩]),
      cumulativeAtLeast := roundTo2 (calculateMultivariateHyper deckSize handSize
        [⟨targetCount, (i : ℤ), handSize⟩]) })

/-- C7: in `calculateProbabilities(40, 3, 5)` the `copies = 0` row has
at-least probability exactly 100, and the at-least column is non-increasing
in the copy count. -/
theorem claim_C7 :
    ((calculateProbabilities 40 3 5).map
        (fun r => (r.drawCount, r.cumulativeAtLeast))).head? = some (0, 100) ∧
      List.Chain' (fun a b => b ≤ a)
        ((calculateProbabilities 40 3 5).map (fun r => r.cumulativeAtLeast)) := by
  have hlist : (calculateProbabilities 40 3 5).map (fun r => r.cumulativeAtLeast)
      = [100, 3376 / 100, 364 / 100, 10 / 100] := by
    with_unfolding_all decide
  have hpair : ((calculateProbabilities 40 3 5).map
      (fun r => (r.drawCount, r.cumulativeAtLeast))).head? = some (0, 100) := by
    with_unfolding_all decide
  refine ⟨hpair, ?_⟩
  rw [hlist]
  refine List.chain'_cons.mpr ⟨by norm_num, ?_⟩
  refine List.chain'_cons.mpr ⟨by norm_num, ?_⟩
  refine List.chain'_cons.mpr ⟨by norm_num, ?_⟩
  exact List.chain'_singleton _

/-- The takes allowed for one group by the claim for C1: every integer
between `minDesired` and `maxDesired` inclusive. -/
def takeRange (g : HyperGroup) : List ℤ :=
  (List.range (g.maxDesired + 1 - g.minDesired).toNat).map (fun j : ℕ => g.minDesired + j)

/-- All take-count tuples described by the claim for C1: one take per group,
each between that group's `minDesired` and `maxDesired`. -/
def validTuples : List HyperGroup → List (List ℤ)
  | [] => [[]]
  | g :: gs => (takeRange g).flatMap
      (fun t => (validTuples gs).map (fun rest => t :: rest))

/-- The product, over the groups, of `C(countInDeck_g, take_g)`. -/
def prodWays (groups : List HyperGroup) (t : List ℤ) : ℕ :=
  ((groups.zip t).map (fun p => combinations p.1.countInDeck p.2)).prod

/-- The successful-way count `S` of claim C1: the sum over all valid tuples
of the group-combination product times the ways of filling the rest of the
hand from the implicit "other" remainder; tuples that overflow the hand or
underflow the remainder contribute nothing. -/
def specWays (otherCount handSize : ℤ) (groups : List HyperGroup) : ℕ :=
  ((validTuples groups).map (fun t =>
    if t.sum ≤ handSize ∧ handSize - t.sum ≤ otherCount then
      prodWays groups t * combinations otherCount (handSize - t.sum)
    else 0)).sum

/-- The data-model invariants of the claim, per group. -/
def GroupsOK (groups : List HyperGroup) : Prop :=
  ∀ g ∈ groups, 0 ≤ g.minDesired ∧ g.minDesired ≤ g.maxDesired ∧ 0 ≤ g.countInDeck

theorem mem_takeRange (g : HyperGroup) (x : ℤ) :
    x ∈ takeRange g ↔ g.minDesired ≤ x ∧ x ≤ g.maxDesired := by
  simp only [takeRange, List.mem_map, List.mem_range]
  constructor
  · rintro ⟨j, hj, rfl⟩
    omega
  · rintro ⟨h1, h2⟩
    exact ⟨(x - g.minDesired).toNat, by omega, by omega⟩

theorem validTuples_sum_nonneg (groups : List HyperGroup) (hOK : GroupsOK groups) :
    ∀ t ∈ validTuples groups, 0 ≤ t.sum := by
  induction groups with
  | nil =>
    intro t ht
    simp only [validTuples, List.mem_singleton] at ht
    subst ht; simp
  | cons g gs ih =>
    intro t ht
    simp only [validTuples, List.mem_flatMap, List.mem_map] at ht
    obtain ⟨t1, ht1, rest, hrest, rfl⟩ := ht
    have hg := hOK g (List.mem_cons_self g gs)
    have ht1' := (mem_takeRange g t1).mp ht1
    have hOK2 : GroupsOK gs := fun x hx => hOK x (List.mem_cons_of_mem g hx)
    have := ih hOK2 rest hrest
    simp only [List.sum_cons]
    omega

theorem specWays_neg (otherCount handSize : ℤ) (groups : List HyperGroup)
    (hOK : GroupsOK groups) (hneg : handSize < 0) :
    specWays otherCount handSize groups = 0 := by
  unfold specWays
  have hz : ∀ t ∈ validTuples groups,
      (if t.sum ≤ handSize ∧ handSize - t.sum ≤ otherCount then
        prodWays groups t * combinations otherCount (handSize - t.sum)
      else 0) = 0 := by
    intro t ht
    have := validTuples_sum_nonneg groups hOK t ht
    rw [if_neg (by omega)]
  rw [List.map_eq_map_iff.mpr hz]
  simp

theorem list_range_map_sum_nat (n : ℕ) (f : ℕ → ℕ) :
    ((List.range n).map f).sum = ∑ i ∈ Finset.range n, f i := rfl

theorem sum_Icc_eq_takeRange_sum (g : HyperGroup) (f : ℤ → ℕ) :
    (∑ x ∈ Finset.Icc g.minDesired g.maxDesired, f x) = ((takeRange g).map f).sum := by
  rw [Int.Icc_eq_finset_map, Finset.sum_map, takeRange, List.map_map, list_range_map_sum_nat]
  apply Finset.sum_congr rfl
  intro j hj
  simp [Function.Embedding.trans_apply, Nat.castEmbedding_apply, addLeftEmbedding_apply,
    Function.comp_apply]

theorem prodWays_cons (g : HyperGroup) (gs : List HyperGroup) (t1 : ℤ) (rest : List ℤ) :
    prodWays (g :: gs) (t1 :: rest) = combinations g.countInDeck t1 * prodWays gs rest := by
  simp [prodWays, List.zip_cons_cons]

theorem sum_flatMap_eq (l : List ℤ) (g : ℤ → List ℕ) :
    (l.flatMap g).sum = (l.map (fun a => (g a).sum)).sum := by
  induction l with
  | nil => simp
  | cons a l ih => simp [List.flatMap_cons, ih]

theorem specWays_cons (otherCount handSize : ℤ) (g : HyperGroup) (gs : List HyperGroup) :
    specWays otherCount handSize (g :: gs)
      = ((takeRange g).map (fun t1 =>
          combinations g.countInDeck t1 * specWays otherCount (handSize - t1) gs)).sum := by
  conv_lhs => rw [specWays, validTuples]
  rw [List.map_flatMap, sum_flatMap_eq]
  apply congrArg List.sum
  apply List.map_eq_map_iff.mpr
  intro t1 ht1
  rw [List.map_map, specWays, ← List.sum_map_mul_left]
  apply congrArg List.sum
  apply List.map_eq_map_iff.mpr
  intro rest hrest
  simp only [Function.comp_apply, List.sum_cons, prodWays_cons, mul_ite, mul_zero, mul_assoc]
  have hinner : handSize - (t1 + rest.sum) = handSize - t1 - rest.sum := by ring
  rw [hinner]
  by_cases h : rest.sum ≤ handSize - t1 ∧ handSize - t1 - rest.sum ≤ otherCount
  · rw [if_pos (by omega : t1 + rest.sum ≤ handSize ∧ handSize - t1 - rest.sum ≤ otherCount),
      if_pos h]
  · rw [if_neg (by omega), if_neg h]

theorem solve_eq_specWays (otherCount : ℤ) (groups : List HyperGroup) :
    GroupsOK groups → ∀ (rh : ℤ) (cw : ℕ), 0 ≤ rh →
      solve otherCount groups rh cw = cw * specWays otherCount rh groups := by
  induction groups with
  | nil =>
    intro _ rh cw hrh
    unfold solve specWays validTuples
    simp only [List.map_cons, List.map_nil, List.sum_cons, List.sum_nil, add_zero]
    rw [if_neg (by omega)]
    by_cases hle : rh ≤ otherCount
    · rw [if_pos hle, if_pos (by simp; omega)]
      simp [prodWays]
    · rw [if_neg hle, if_neg (by simp; omega)]
      simp
  | cons g gs ih =>
    intro hOK rh cw hrh
    have hg := hOK g (List.mem_cons_self g gs)
    have hOK2 : GroupsOK gs := fun x hx => hOK x (List.mem_cons_of_mem g hx)
    unfold solve
    rw [if_neg (by omega), max_eq_right hg.1]
    have hstep : ∀ take ∈ Finset.Icc g.minDesired (min rh (min g.countInDeck g.maxDesired)),
        (if 0 < combinations g.countInDeck take then
          solve otherCount gs (rh - take) (cw * combinations g.countInDeck take)
        else 0)
        = cw * (combinations g.countInDeck take * specWays otherCount (rh - take) gs) := by
      intro take htake
      have hmem := Finset.mem_Icc.mp htake
      have hpos : 0 < combinations g.countInDeck take :=
        combinations_pos _ _ (by omega) (by omega)
      rw [if_pos hpos, ih hOK2 (rh - take) _ (by omega), mul_assoc]
    rw [Finset.sum_congr rfl hstep, ← Finset.mul_sum]
    congr 1
    rw [specWays_cons, ← sum_Icc_eq_takeRange_sum]
    apply Finset.sum_subset
    · intro x hx
      have := Finset.mem_Icc.mp hx
      exact Finset.mem_Icc.mpr (by omega)
    · intro x hxbig hxsmall
      have h1 := Finset.mem_Icc.mp hxbig
      have h2 : ¬(g.minDesired ≤ x ∧ x ≤ min rh (min g.countInDeck g.maxDesired)) :=
        fun hc => hxsmall (Finset.mem_Icc.mpr hc)
      by_cases hcnt : g.countInDeck < x
      · rw [combinations_eq_zero_of_gt _ _ hcnt, zero_mul]
      · rw [specWays_neg _ _ _ hOK2 (by omega), mul_zero]

/-- C1: under the data-model invariants (`0 ≤ handSize ≤ deckSize`, each
group with `0 ≤ minDesired ≤ maxDesired` and `0 ≤ countInDeck`, and the
groups' total pool count at most `deckSize`), `calculateMultivariateHyper`
returns 100 times the ratio of the claim's successful-way count `S`
(`specWays`) to `C(deckSize, handSize)`. -/
theorem claim_C1 (deckSize handSize : ℤ) (groups : List HyperGroup)
    (hhand0 : 0 ≤ handSize) (hhand : handSize ≤ deckSize)
    (hOK : GroupsOK groups)
    (hsum : (groups.map (fun g => g.countInDeck)).sum ≤ deckSize) :
    calculateMultivariateHyper deckSize handSize groups
      = 100 * (specWays (deckSize - (groups.map (fun g => g.countInDeck)).sum)
            handSize groups : ℚ)
          / (combinations deckSize handSize : ℚ) := by
  have hpos := combinations_pos deckSize handSize hhand0 hhand
  simp only [calculateMultivariateHyper]
  rw [if_neg (by omega), if_neg (by omega), if_neg (by omega)]
  rw [solve_eq_specWays _ _ hOK handSize 1 hhand0, one_mul]
  ring

theorem claim_C1_witness :
    calculateMultivariateHyper 4 2 [⟨2, 1, 2⟩]
      = 100 * (specWays (4 - (([⟨2, 1, 2⟩] : List HyperGroup).map
            (fun g => g.countInDeck)).sum) 2 [⟨2, 1, 2⟩] : ℚ)
          / (combinations 4 2 : ℚ) :=
  claim_C1 4 2 [⟨2, 1, 2⟩] (by decide) (by decide)
    (by intro g hg; simp only [List.mem_singleton] at hg; subst hg; refine ⟨by decide, by decide, by decide⟩)
    (by decide)

theorem makeItChanceList_length (t c : ℚ) (l : List SwissStanding) :
    (makeItChanceList t c l).length = l.length := by
  induction l generalizing c with
  | nil => rfl
  | cons a l ih => simp [makeItChanceList, ih]

theorem makeItChanceList_append (t c : ℚ) (pre rest : List SwissStanding) :
    makeItChanceList t c (pre ++ rest)
      = makeItChanceList t c pre
        ++ makeItChanceList t (c + (pre.map (fun x => x.count)).sum) rest := by
  induction pre generalizing c with
  | nil => simp [makeItChanceList]
  | cons a l ih =>
    simp only [List.cons_append, makeItChanceList, List.append_eq, List.map_cons,
      List.sum_cons, ih]
    rw [add_assoc]

theorem swiss_count_pos (numPlayers numRounds : ℤ) (hP : 0 < numPlayers)
    (s : SwissStanding) (hs : s ∈ calculateSwissStandings numPlayers numRounds) :
    0 < s.count := by
  unfold calculateSwissStandings winsList at hs
  simp only [List.map_map, List.mem_map, List.mem_reverse, List.mem_range] at hs
  obtain ⟨j, hj, rfl⟩ := hs
  simp only [Function.comp_apply]
  have hjR : (j : ℤ) ≤ numRounds := by omega
  have hc := combinations_pos numRounds (j : ℤ) (by positivity) hjR
  have h2 : (0 : ℚ) < (2 : ℚ) ^ numRounds := zpow_pos (by norm_num) numRounds
  have hPq : (0 : ℚ) < (numPlayers : ℚ) := by exact_mod_cast hP
  have hcq : (0 : ℚ) < (combinations numRounds (j : ℤ) : ℚ) := by exact_mod_cast hc
  positivity

/-- C3: in the qualification-chance assignment of `calculateTopXProbability`
(for a positive player count), a bucket whose cumulative total after
inclusion is at most `targetRank` gets chance 1, the straddling bucket
(cumulative strictly below `targetRank` before it and strictly above after
it) gets exactly `(targetRank - cumulativeBefore) / bucketSize`, and a
bucket preceded by a cumulative total at least `targetRank` gets chance 0. -/
theorem claim_C3 (totalPlayers totalRounds : ℤ) (targetRank : ℚ)
    (hP : 0 < totalPlayers) (pre post : List SwissStanding) (s : SwissStanding)
    (hdecomp : calculateSwissStandings totalPlayers totalRounds = pre ++ s :: post) :
    (((pre.map (fun x => x.count)).sum + s.count ≤ targetRank →
      ((makeItChanceList targetRank 0
          (calculateSwissStandings totalPlayers totalRounds)).getD
        pre.length ((0 : ℤ), (0 : ℚ))).2 = 1) ∧
     ((pre.map (fun x => x.count)).sum < targetRank →
      targetRank < (pre.map (fun x => x.count)).sum + s.count →
      ((makeItChanceList targetRank 0
          (calculateSwissStandings totalPlayers totalRounds)).getD
        pre.length ((0 : ℤ), (0 : ℚ))).2
        = (targetRank - (pre.map (fun x => x.count)).sum) / s.count) ∧
     (targetRank ≤ (pre.map (fun x => x.count)).sum →
      ((makeItChanceList targetRank 0
          (calculateSwissStandings totalPlayers totalRounds)).getD
        pre.length ((0 : ℤ), (0 : ℚ))).2 = 0)) := by
  have hcnt : 0 < s.count := by
    refine swiss_count_pos totalPlayers totalRounds hP s ?_
    rw [hdecomp]
    exact List.mem_append_right pre (List.mem_cons_self s post)
  have hgetD : ((makeItChanceList targetRank 0
      (calculateSwissStandings totalPlayers totalRounds)).getD
        pre.length ((0 : ℤ), (0 : ℚ)))
      = (s.wins,
        if (0 + (pre.map (fun x => x.count)).sum) + s.count ≤ targetRank then 1
        else if (0 + (pre.map (fun x => x.count)).sum) < targetRank then
          (targetRank - (0 + (pre.map (fun x => x.count)).sum)) / s.count
        else 0) := by
    rw [hdecomp, makeItChanceList_append]
    rw [List.getD_eq_getElem?_getD, List.getElem?_append_right
      (by rw [makeItChanceList_length] : (makeItChanceList targetRank 0 pre).length ≤ pre.length)]
    rw [makeItChanceList_length, Nat.sub_self]
    rw [makeItChanceList]
    simp
  rw [hgetD]
  simp only [zero_add]
  set prev := (pre.map (fun x => x.count)).sum with hprev
  refine ⟨?_, ?_, ?_⟩
  · intro h
    rw [if_pos h]
  · intro h1 h2
    rw [if_neg (by linarith), if_pos h1]
  · intro h
    rw [if_neg (by linarith), if_neg (by linarith)]

theorem claim_C3_witness :
    ((makeItChanceList 30 0 (calculateSwissStandings 64 6)).getD 3 ((0 : ℤ), (0 : ℚ))).2
      = (30 - ((([⟨6, 0, 1, 1, 1⟩, ⟨5, 1, 6, 6, 6⟩, ⟨4, 2, 15, 15, 15⟩] :
            List SwissStanding).map (fun x => x.count)).sum : ℚ))
          / (⟨3, 3, 20, 20, 20⟩ : SwissStanding).count :=
  (claim_C3 64 6 30 (by decide)
    [⟨6, 0, 1, 1, 1⟩, ⟨5, 1, 6, 6, 6⟩, ⟨4, 2, 15, 15, 15⟩]
    [⟨2, 4, 15, 15, 15⟩, ⟨1, 5, 6, 6, 6⟩, ⟨0, 6, 1, 1, 1⟩]
    ⟨3, 3, 20, 20, 20⟩
    (by with_unfolding_all decide)).2.1
    (by with_unfolding_all decide) (by with_unfolding_all decide)
